import Mathlib

/-
  Verification development for rclean (src/main.rs).

  The program scans a single directory, hashes each regular file under a
  configured algorithm, consults a persisted digest-to-path index
  (results.json inside the scanned directory), schedules duplicate files
  for deletion, deletes them, and rewrites the index.

  The embedding below follows main.rs line by line:
    - compute_hash reads the file content first, then dispatches on the
      algorithm name string, panicking on an unrecognized name;
    - the scan loop over directory entries keeps a HashMap file_hashes
      (digest to path) and a Vec files_to_remove, pushing existing_file
      when the current file is strictly newer and the current path
      (via path.to_str().unwrap()) otherwise, inserting the path only when
      the digest is absent;
    - after the scan, each path in files_to_remove is removed (a failed
      removal aborts), and the index is serialized to results.json.

  File paths may be non-UTF-8 (RawPath.nonUtf8), in which case
  Path::to_str returns None and unwrap panics.  All panics and io errors
  are modelled as Except errors.  Reads of file content are recorded in a
  readLog so that ordering of reads relative to errors is observable.
  The hash implementation itself is an external pluggable capability and
  is a parameter hashFn of the model.
-/

namespace Rclean

/-- A directory entry path: either valid UTF-8 (carrying the path string)
or a non-UTF-8 path identified abstractly by a number. -/
inductive RawPath where
  | utf8 (s : String)
  | nonUtf8 (id : Nat)
deriving DecidableEq, Repr

/-- Rust Path::to_str: some string for UTF-8 paths, none otherwise. -/
def RawPath.to_str : RawPath → Option String
  | .utf8 s => some s
  | .nonUtf8 _ => none

/-- Content and modification time of a regular file. -/
structure FileData where
  content : List Nat
  mtime : Nat
deriving DecidableEq, Repr

/-- The directory as a finite map from paths to file data; a path is a
regular file exactly when it occurs here. -/
abbrev Fs := List (RawPath × FileData)

/-- Look a path up in the directory. -/
def lookupFs : Fs → RawPath → Option FileData
  | [], _ => none
  | (q, d) :: rest, p => if q = p then some d else lookupFs rest p

/-- Remove a path from the directory (fs::remove_file effect). -/
def fsErase : Fs → RawPath → Fs
  | [], _ => []
  | (q, d) :: rest, p => if q = p then fsErase rest p else (q, d) :: fsErase rest p

/-- Create or overwrite a file (File::create plus write effect). -/
def fsWrite : Fs → RawPath → FileData → Fs
  | [], p, d => [(p, d)]
  | (q, e) :: rest, p, d => if q = p then (p, d) :: rest else (q, e) :: fsWrite rest p d

/-- The in-memory HashMap from digest string to path string. -/
abbrev Index := List (String × String)

/-- HashMap::get on the digest map. -/
def idxGet : Index → String → Option String
  | [], _ => none
  | (k, v) :: rest, d => if k = d then some v else idxGet rest d

/-- HashMap::insert on the digest map (replaces an existing binding). -/
def idxInsert : Index → String → String → Index
  | [], k, v => [(k, v)]
  | (k0, v0) :: rest, k, v =>
      if k0 = k then (k, v) :: rest else (k0, v0) :: idxInsert rest k v

/-- The path values stored in the digest map. -/
def idxValues (idx : Index) : List String := idx.map (fun kv => kv.2)

/-- The hash algorithms accepted by compute_hash. -/
inductive HashAlgo where
  | MD5
  | SHA1
  | SHA256
  | SHA512
deriving DecidableEq, Repr

/-- The string dispatch performed by the match in compute_hash. -/
def parseAlgo (s : String) : Option HashAlgo :=
  if s = "MD5" then some .MD5
  else if s = "SHA1" then some .SHA1
  else if s = "SHA256" then some .SHA256
  else if s = "SHA512" then some .SHA512
  else none

/-- A pluggable digest function: the external hash crates, out of scope of
the core, abstracted as a function from algorithm and content to a digest
string. -/
abbrev HashFn := HashAlgo → List Nat → String

/-- Every way a run can abort: panics (expect/unwrap/explicit) and io
errors propagated by the question-mark operator. -/
inductive ErrKind where
  | openFailed (p : RawPath)
  | invalidAlgo (logic : String)
  | metadataFailed (p : String)
  | metadataFailedRaw (p : RawPath)
  | unwrapNone (p : RawPath)
  | removeFailed (p : String)
  | parseConfig
deriving DecidableEq, Repr

/-- compute_hash from main.rs: open the file and read its full content
(recorded in the read log), then dispatch on the algorithm name,
panicking on an unrecognized name.  The read strictly precedes the
algorithm check, as in the source. -/
def compute_hash (hashFn : HashFn) (fs : Fs) (path : RawPath) (hash_logic : String)
    (log : List RawPath) : Except (ErrKind × List RawPath) (String × List RawPath) :=
  match lookupFs fs path with
  | none => .error (.openFailed path, log)
  | some d =>
      match parseAlgo hash_logic with
      | some a => .ok (hashFn a d.content, log ++ [path])
      | none => .error (.invalidAlgo hash_logic, log ++ [path])

/-- The mutable state of the scan loop in main: the digest map, the list
of files scheduled for removal, and the log of file reads. -/
structure ScanState where
  file_hashes : Index
  files_to_remove : List String
  readLog : List RawPath
deriving DecidableEq, Repr

/-- One iteration of the scan loop in main, for one directory entry.
Non-files are skipped; for a file the digest is computed, then either the
recorded survivor or the current path is scheduled for removal, or the
digest is freshly inserted.  The index is not touched in either removal
branch. -/
def processEntry (hashFn : HashFn) (fs : Fs) (hash_logic : String)
    (st : ScanState) (path : RawPath) : Except (ErrKind × List RawPath) ScanState :=
  if (lookupFs fs path).isSome then
    match compute_hash hashFn fs path hash_logic st.readLog with
    | .error e => .error e
    | .ok (file_hash, log) =>
        match idxGet st.file_hashes file_hash with
        | some existing_file =>
            match lookupFs fs (.utf8 existing_file) with
            | none => .error (.metadataFailed existing_file, log)
            | some existing_metadata =>
                match lookupFs fs path with
                | none => .error (.metadataFailedRaw path, log)
                | some current_metadata =>
                    if existing_metadata.mtime < current_metadata.mtime then
                      .ok { st with
                              files_to_remove := st.files_to_remove ++ [existing_file],
                              readLog := log }
                    else
                      match path.to_str with
                      | some s =>
                          .ok { st with
                                  files_to_remove := st.files_to_remove ++ [s],
                                  readLog := log }
                      | none => .error (.unwrapNone path, log)
        | none =>
            match path.to_str with
            | some s =>
                .ok { st with
                        file_hashes := idxInsert st.file_hashes file_hash s,
                        readLog := log }
            | none => .error (.unwrapNone path, log)
  else
    .ok st

/-- The whole scan loop: fold processEntry over the directory listing. -/
def scanEntries (hashFn : HashFn) (fs : Fs) (hash_logic : String) :
    ScanState → List RawPath → Except (ErrKind × List RawPath) ScanState
  | st, [] => .ok st
  | st, p :: rest =>
      match processEntry hashFn fs hash_logic st p with
      | .error e => .error e
      | .ok st' => scanEntries hashFn fs hash_logic st' rest

/-- The deletion loop in main: remove each scheduled path in order; a
removal of a path that does not exist fails and aborts the loop. -/
def removeFiles : Fs → List String → Except ErrKind Fs
  | fs, [] => .ok fs
  | fs, p :: rest =>
      if (lookupFs fs (.utf8 p)).isSome then
        removeFiles (fsErase fs (.utf8 p)) rest
      else
        .error (.removeFailed p)

/-- Name of the persisted index file inside the scanned directory. -/
def resultsName : String := "results.json"

/-- An executable stand-in for the serde_json serialization of the index:
an injective-enough byte encoding; the run never parses it back within
one run, so only its presence as content matters. -/
def encodeIndex (idx : Index) : List Nat :=
  idx.foldr
    (fun kv acc =>
      (kv.1.toList.map Char.toNat) ++ [0] ++ (kv.2.toList.map Char.toNat) ++ [1] ++ acc)
    []

/-- Serialize the final index into results.json inside the directory,
with the write giving the file modification time t. -/
def writeResults (fs : Fs) (idx : Index) (t : Nat) : Fs :=
  fsWrite fs (.utf8 resultsName) ⟨encodeIndex idx, t⟩

/-- Outcome of a successful run: the directory after deletions and the
index write, the final in-memory index, the paths removed, and the file
reads performed. -/
structure RunResult where
  fs : Fs
  index : Index
  removed : List String
  readLog : List RawPath
deriving DecidableEq, Repr

/-- The body of main after configuration and index load: scan the listed
entries, apply the deletions, then persist the index. -/
def runAll (hashFn : HashFn) (fs : Fs) (entries : List RawPath) (init : Index)
    (hash_logic : String) (tWrite : Nat) : Except (ErrKind × List RawPath) RunResult :=
  match scanEntries hashFn fs hash_logic ⟨init, [], []⟩ entries with
  | .error e => .error e
  | .ok st =>
      match removeFiles fs st.files_to_remove with
      | .error k => .error (k, st.readLog)
      | .ok fs' =>
          .ok ⟨writeResults fs' st.file_hashes tWrite, st.file_hashes,
               st.files_to_remove, st.readLog⟩

/-- The configuration record parsed from config.json. -/
structure Config where
  directory : String
  hash_logic : String
deriving DecidableEq, Repr

/-- Choice of the configuration file path from argv (args includes the
program name at index 0): the first positional argument if present,
otherwise config.json. -/
def chooseConfigFile (args : List String) : String :=
  if args.length > 1 then args.getD 1 "" else "config.json"

/-- Loading the configuration: if the file exists it is parsed (a parse
failure is a fatal panic); if it does not exist the defaults are the
current directory and MD5. -/
def loadConfig (fs : Fs) (cfgFile : String) (parse : List Nat → Option Config) :
    Except ErrKind Config :=
  match lookupFs fs (.utf8 cfgFile) with
  | some d =>
      match parse d.content with
      | some c => .ok c
      | none => .error .parseConfig
  | none => .ok ⟨".", "MD5"⟩

/-- A concrete digest function for concrete scenarios: renders the content
bytes as a string (injective on contents, ignoring the algorithm, which
the scenarios fix). -/
def testHash : HashFn := fun _ c => toString c

/-- Scenario directory: a.txt older and b.txt newer with identical
content. -/
def fsAB : Fs := [(.utf8 "a.txt", ⟨[1], 1⟩), (.utf8 "b.txt", ⟨[1], 2⟩)]

/-- Scenario listing for fsAB, oldest first. -/
def entriesAB : List RawPath := [.utf8 "a.txt", .utf8 "b.txt"]

/-- Scenario directory: three files with identical content and strictly
increasing modification times. -/
def fsTriple : Fs := [(.utf8 "f1", ⟨[1], 1⟩), (.utf8 "f2", ⟨[1], 2⟩), (.utf8 "f3", ⟨[1], 3⟩)]

/-- Scenario listing for fsTriple, oldest first. -/
def entriesTriple : List RawPath := [.utf8 "f1", .utf8 "f2", .utf8 "f3"]

/-- Scenario directory: a single file with unique content. -/
def fsSingle : Fs := [(.utf8 "a", ⟨[1], 1⟩)]

/-- Scenario directory: an older UTF-8 file and a newer non-UTF-8 file
with identical content. -/
def fsMixed : Fs := [(.utf8 "a", ⟨[1], 1⟩), (.nonUtf8 0, ⟨[1], 2⟩)]

/-- Scenario directory: two files with identical content and identical
modification times. -/
def fsTie : Fs := [(.utf8 "a", ⟨[1], 1⟩), (.utf8 "b", ⟨[1], 1⟩)]

/-- Scenario directory: a single non-UTF-8 regular file. -/
def fsNonUtf : Fs := [(.nonUtf8 3, ⟨[1], 1⟩)]

/-- Scenario directory: one data file plus an existing results.json. -/
def fsWithResults : Fs := [(.utf8 "a", ⟨[1], 1⟩), (.utf8 resultsName, ⟨[2], 5⟩)]

end Rclean

namespace Rclean

/-- C1: the claim says that when the current file is strictly newer than
the recorded file for its digest, the recorded path is scheduled for
deletion AND the index entry is updated to the current file.  The code
performs the deletion but never updates the index: after the run on
(a.txt older, b.txt newer, same content) the index still maps the shared
digest to a.txt, which has been deleted. -/
theorem c1_index_not_updated_on_newer :
    runAll testHash fsAB entriesAB [] "MD5" 10 =
      .ok ⟨[(.utf8 "b.txt", ⟨[1], 2⟩),
            (.utf8 resultsName, ⟨encodeIndex [("[1]", "a.txt")], 10⟩)],
           [("[1]", "a.txt")], ["a.txt"], [.utf8 "a.txt", .utf8 "b.txt"]⟩ ∧
    idxGet [("[1]", "a.txt")] (testHash .MD5 [1]) = some "a.txt" ∧
    lookupFs [(.utf8 "b.txt", ⟨[1], 2⟩),
              (.utf8 resultsName, ⟨encodeIndex [("[1]", "a.txt")], 10⟩)]
        (.utf8 "a.txt") = none :=
  ⟨rfl, rfl, rfl⟩

/-- C2: the claimed end-of-run invariant — every indexed path exists and
is the most recently modified file with that digest — fails: after the
run on fsAB the index maps the digest to a.txt, which no longer exists,
while the surviving file is b.txt. -/
theorem c2_final_index_points_to_deleted_file :
    runAll testHash fsAB entriesAB [] "MD5" 10 =
      .ok ⟨[(.utf8 "b.txt", ⟨[1], 2⟩),
            (.utf8 resultsName, ⟨encodeIndex [("[1]", "a.txt")], 10⟩)],
           [("[1]", "a.txt")], ["a.txt"], [.utf8 "a.txt", .utf8 "b.txt"]⟩ ∧
    lookupFs [(.utf8 "b.txt", ⟨[1], 2⟩),
              (.utf8 resultsName, ⟨encodeIndex [("[1]", "a.txt")], 10⟩)]
        (.utf8 "a.txt") = none ∧
    lookupFs [(.utf8 "b.txt", ⟨[1], 2⟩),
              (.utf8 resultsName, ⟨encodeIndex [("[1]", "a.txt")], 10⟩)]
        (.utf8 "b.txt") = some ⟨[1], 2⟩ :=
  ⟨rfl, rfl, rfl⟩

/-- C3: with three files sharing a digest, scanned oldest first, the
oldest path is pushed to the deletion list twice (the index entry is
never moved off it), and the deletion loop aborts with a removal error on
the second occurrence; the uniqueness claim fails. -/
theorem c3_triple_duplicate_aborts :
    scanEntries testHash fsTriple "MD5" ⟨[], [], []⟩ entriesTriple =
      .ok ⟨[("[1]", "f1")], ["f1", "f1"], [.utf8 "f1", .utf8 "f2", .utf8 "f3"]⟩ ∧
    runAll testHash fsTriple entriesTriple [] "MD5" 10 =
      .error (.removeFailed "f1", [.utf8 "f1", .utf8 "f2", .utf8 "f3"]) :=
  ⟨rfl, rfl⟩

/-- C5: running the program a second time on the unchanged result of a
first run is not idempotent: the single surviving file a compares
equal-mtime against its own index entry and is scheduled for deletion, so
the second run deletes it, and the index also gains an entry for
results.json; the DeletionSet is not empty and the index changes. -/
theorem c5_second_run_deletes_survivor :
    runAll testHash fsSingle [.utf8 "a"] [] "MD5" 5 =
      .ok ⟨[(.utf8 "a", ⟨[1], 1⟩), (.utf8 resultsName, ⟨encodeIndex [("[1]", "a")], 5⟩)],
           [("[1]", "a")], [], [.utf8 "a"]⟩ ∧
    runAll testHash
        [(.utf8 "a", ⟨[1], 1⟩), (.utf8 resultsName, ⟨encodeIndex [("[1]", "a")], 5⟩)]
        [.utf8 "a", .utf8 resultsName] [("[1]", "a")] "MD5" 6 =
      .ok ⟨[(.utf8 resultsName,
              ⟨encodeIndex [("[1]", "a"),
                  (testHash .MD5 (encodeIndex [("[1]", "a")]), resultsName)], 6⟩)],
           [("[1]", "a"), (testHash .MD5 (encodeIndex [("[1]", "a")]), resultsName)],
           ["a"], [.utf8 "a", .utf8 resultsName]⟩ ∧
    lookupFs [(.utf8 resultsName,
                ⟨encodeIndex [("[1]", "a"),
                    (testHash .MD5 (encodeIndex [("[1]", "a")]), resultsName)], 6⟩)]
        (.utf8 "a") = none ∧
    [("[1]", "a"), (testHash .MD5 (encodeIndex [("[1]", "a")]), resultsName)] ≠
      [(("[1]" : String), ("a" : String))] :=
  ⟨rfl, rfl, rfl, by decide⟩

/-- C6: with the invalid algorithm name SHA3 and one file present, the run
does abort with the invalid-algorithm panic, but only from inside
compute_hash after the first file's content has been read: the read log
attached to the error is nonempty, refuting the claim that no file's
byte content is read before the error is raised. -/
theorem c6_file_read_before_algo_error :
    runAll testHash fsSingle [.utf8 "a"] [] "SHA3" 5 =
      .error (.invalidAlgo "SHA3", [.utf8 "a"]) ∧
    ([.utf8 "a"] : List RawPath) ≠ [] :=
  ⟨rfl, by decide⟩

/-- C10: a non-UTF-8 regular file does not always abort the run: when its
digest is already indexed and it is strictly newer than the recorded
file, the code pushes the recorded (string) path without converting the
current path, so no unwrap panic occurs and the run completes, deleting
the recorded file. -/
theorem c10_non_utf8_can_run_through :
    runAll testHash fsMixed [.utf8 "a", .nonUtf8 0] [] "MD5" 9 =
      .ok ⟨[(.nonUtf8 0, ⟨[1], 2⟩),
            (.utf8 resultsName, ⟨encodeIndex [("[1]", "a")], 9⟩)],
           [("[1]", "a")], ["a"], [.utf8 "a", .nonUtf8 0]⟩ ∧
    lookupFs [(.nonUtf8 0, ⟨[1], 2⟩),
              (.utf8 resultsName, ⟨encodeIndex [("[1]", "a")], 9⟩)]
        (.nonUtf8 0) = some ⟨[1], 2⟩ :=
  ⟨rfl, rfl⟩

/-- C4: the persisted results.json is not excluded from the scan: on a
second run over the directory produced by a first run, results.json is
read (hashed) and its digest is inserted into the index mapped to the
results.json path. -/
theorem c4_results_file_is_hashed :
    scanEntries testHash
        [(.utf8 "a", ⟨[1], 1⟩), (.utf8 resultsName, ⟨encodeIndex [("[1]", "a")], 5⟩)]
        "MD5" ⟨[("[1]", "a")], [], []⟩ [.utf8 "a", .utf8 resultsName] =
      .ok ⟨[("[1]", "a"), (testHash .MD5 (encodeIndex [("[1]", "a")]), resultsName)],
           ["a"], [.utf8 "a", .utf8 resultsName]⟩ ∧
    idxGet [("[1]", "a"), (testHash .MD5 (encodeIndex [("[1]", "a")]), resultsName)]
        (testHash .MD5 (encodeIndex [("[1]", "a")])) = some resultsName :=
  ⟨rfl, rfl⟩

end Rclean

namespace Rclean

/-- A path whose to_str succeeds is the UTF-8 path of that string. -/
theorem to_str_eq_utf8 (p : RawPath) (s : String) (h : p.to_str = some s) :
    p = .utf8 s := by
  cases p with
  | utf8 t => cases h; rfl
  | nonUtf8 i => exact Option.noConfusion h

/-- A successful lookup in the digest map returns one of its stored path
values. -/
theorem idxGet_mem_values (idx : Index) (k v : String)
    (h : idxGet idx k = some v) : v ∈ idxValues idx := by
  induction idx with
  | nil => exact Option.noConfusion h
  | cons kv rest ih =>
      obtain ⟨k0, v0⟩ := kv
      by_cases hk : k0 = k
      · simp only [idxGet, if_pos hk] at h
        cases h
        simp [idxValues]
      · simp only [idxGet, if_neg hk] at h
        simp [idxValues]
        exact Or.inr (by simpa [idxValues] using ih h)

/-- Every path value of the map after an insert is an old value or the
inserted one. -/
theorem idxInsert_values (idx : Index) (k v s : String)
    (h : s ∈ idxValues (idxInsert idx k v)) : s ∈ idxValues idx ∨ s = v := by
  induction idx with
  | nil =>
      simp [idxInsert, idxValues] at h
      exact Or.inr h
  | cons kv rest ih =>
      obtain ⟨k0, v0⟩ := kv
      by_cases hk : k0 = k
      · simp only [idxInsert, if_pos hk, idxValues, List.map_cons] at h
        rcases List.mem_cons.mp h with h | h
        · exact Or.inr h
        · exact Or.inl (by simp [idxValues, h])
      · simp only [idxInsert, if_neg hk, idxValues, List.map_cons] at h
        rcases List.mem_cons.mp h with h | h
        · exact Or.inl (by simp [idxValues, h])
        · rcases ih h with h | h
          · exact Or.inl (by simp [idxValues]; exact Or.inr (by simpa [idxValues] using h))
          · exact Or.inr h

/-- Exhaustive description of a successful loop iteration: either the
entry is not a regular file and the state is unchanged, or the recorded
survivor for the digest is scheduled for removal, or the current path is
scheduled for removal, or the current path is freshly inserted; in every
file case the path is appended to the read log. -/
theorem processEntry_ok_cases (hashFn : HashFn) (fs : Fs) (logic : String)
    (st st' : ScanState) (p : RawPath)
    (hok : processEntry hashFn fs logic st p = .ok st') :
    (lookupFs fs p = none ∧ st' = st) ∨
    (∃ e, e ∈ idxValues st.file_hashes ∧
        st' = { st with files_to_remove := st.files_to_remove ++ [e],
                        readLog := st.readLog ++ [p] }) ∨
    (∃ s, p.to_str = some s ∧ (lookupFs fs p).isSome ∧
        st' = { st with files_to_remove := st.files_to_remove ++ [s],
                        readLog := st.readLog ++ [p] }) ∨
    (∃ s k, p.to_str = some s ∧ (lookupFs fs p).isSome ∧
        st' = { st with file_hashes := idxInsert st.file_hashes k s,
                        readLog := st.readLog ++ [p] }) := by
  by_cases hfile : (lookupFs fs p).isSome
  · obtain ⟨d, hd⟩ := Option.isSome_iff_exists.mp hfile
    cases halgo : parseAlgo logic with
    | none =>
        have hev : processEntry hashFn fs logic st p =
            .error (.invalidAlgo logic, st.readLog ++ [p]) := by
          simp [processEntry, compute_hash, hd, halgo]
        rw [hev] at hok
        exact Except.noConfusion hok
    | some a =>
        cases hget : idxGet st.file_hashes (hashFn a d.content) with
        | none =>
            cases hstr : p.to_str with
            | none =>
                have hev : processEntry hashFn fs logic st p =
                    .error (.unwrapNone p, st.readLog ++ [p]) := by
                  simp [processEntry, compute_hash, hd, halgo, hget, hstr]
                rw [hev] at hok
                exact Except.noConfusion hok
            | some s =>
                have hev : processEntry hashFn fs logic st p =
                    .ok { st with
                            file_hashes := idxInsert st.file_hashes (hashFn a d.content) s,
                            readLog := st.readLog ++ [p] } := by
                  simp [processEntry, compute_hash, hd, halgo, hget, hstr]
                rw [hev] at hok
                refine Or.inr (Or.inr (Or.inr ⟨s, hashFn a d.content, rfl, hfile, ?_⟩))
                exact (Except.ok.injEq _ _).mp hok |>.symm
        | some e =>
            cases hem : lookupFs fs (.utf8 e) with
            | none =>
                have hev : processEntry hashFn fs logic st p =
                    .error (.metadataFailed e, st.readLog ++ [p]) := by
                  simp [processEntry, compute_hash, hd, halgo, hget, hem]
                rw [hev] at hok
                exact Except.noConfusion hok
            | some em =>
                by_cases hlt : em.mtime < d.mtime
                · have hev : processEntry hashFn fs logic st p =
                      .ok { st with
                              files_to_remove := st.files_to_remove ++ [e],
                              readLog := st.readLog ++ [p] } := by
                    simp [processEntry, compute_hash, hd, halgo, hget, hem, hlt]
                  rw [hev] at hok
                  refine Or.inr (Or.inl ⟨e, idxGet_mem_values _ _ _ hget, ?_⟩)
                  exact (Except.ok.injEq _ _).mp hok |>.symm
                · cases hstr : p.to_str with
                  | none =>
                      have hev : processEntry hashFn fs logic st p =
                          .error (.unwrapNone p, st.readLog ++ [p]) := by
                        simp [processEntry, compute_hash, hd, halgo, hget, hem, hlt, hstr]
                      rw [hev] at hok
                      exact Except.noConfusion hok
                  | some s =>
                      have hev : processEntry hashFn fs logic st p =
                          .ok { st with
                                  files_to_remove := st.files_to_remove ++ [s],
                                  readLog := st.readLog ++ [p] } := by
                        simp [processEntry, compute_hash, hd, halgo, hget, hem, hlt, hstr]
                      rw [hev] at hok
                      refine Or.inr (Or.inr (Or.inl ⟨s, rfl, hfile, ?_⟩))
                      exact (Except.ok.injEq _ _).mp hok |>.symm
  · have hev : processEntry hashFn fs logic st p = .ok st := by
      simp [processEntry, hfile]
    rw [hev] at hok
    refine Or.inl ⟨Option.not_isSome_iff_eq_none.mp hfile, ?_⟩
    exact (Except.ok.injEq _ _).mp hok |>.symm

end Rclean

namespace Rclean

/-- Reads already logged stay logged across the rest of the scan. -/
theorem scanEntries_readLog_mem (hashFn : HashFn) (fs : Fs) (logic : String) :
    ∀ (l : List RawPath) (st st' : ScanState),
      scanEntries hashFn fs logic st l = .ok st' →
      ∀ q ∈ st.readLog, q ∈ st'.readLog := by
  intro l
  induction l with
  | nil =>
      intro st st' hok q hq
      simp only [scanEntries] at hok
      injection hok with h
      exact h ▸ hq
  | cons p rest ih =>
      intro st st' hok q hq
      simp only [scanEntries] at hok
      cases hpe : processEntry hashFn fs logic st p with
      | error e =>
          rw [hpe] at hok
          exact Except.noConfusion hok
      | ok st1 =>
          rw [hpe] at hok
          have hq1 : q ∈ st1.readLog := by
            rcases processEntry_ok_cases hashFn fs logic st st1 p hpe with
              ⟨_, rfl⟩ | ⟨e, _, rfl⟩ | ⟨s, _, _, rfl⟩ | ⟨s, k, _, _, rfl⟩
            · exact hq
            · exact List.mem_append_left _ hq
            · exact List.mem_append_left _ hq
            · exact List.mem_append_left _ hq
          exact ih st1 st' hok q hq1

/-- C4 amended: the persisted results file is NOT excluded from the scan;
whenever it is listed in the directory and is a regular file, any
successful scan reads (hashes) it like every other data file. -/
theorem c4_results_file_always_read (hashFn : HashFn) (fs : Fs) (logic : String)
    (hfile : (lookupFs fs (.utf8 resultsName)).isSome) :
    ∀ (entries : List RawPath) (st st' : ScanState),
      RawPath.utf8 resultsName ∈ entries →
      scanEntries hashFn fs logic st entries = .ok st' →
      RawPath.utf8 resultsName ∈ st'.readLog := by
  intro entries
  induction entries with
  | nil =>
      intro st st' hmem _
      exact absurd hmem (List.not_mem_nil _)
  | cons p rest ih =>
      intro st st' hmem hok
      simp only [scanEntries] at hok
      cases hpe : processEntry hashFn fs logic st p with
      | error e =>
          rw [hpe] at hok
          exact Except.noConfusion hok
      | ok st1 =>
          rw [hpe] at hok
          rcases List.mem_cons.mp hmem with heq | hmem'
          · subst heq
            rcases processEntry_ok_cases hashFn fs logic st st1 _ hpe with
              ⟨hnone, rfl⟩ | ⟨e, _, rfl⟩ | ⟨s, _, _, rfl⟩ | ⟨s, k, _, _, rfl⟩
            · rw [hnone] at hfile
              exact absurd hfile (by simp)
            · exact scanEntries_readLog_mem hashFn fs logic rest _ st' hok _
                (List.mem_append_right _ (by simp))
            · exact scanEntries_readLog_mem hashFn fs logic rest _ st' hok _
                (List.mem_append_right _ (by simp))
            · exact scanEntries_readLog_mem hashFn fs logic rest _ st' hok _
                (List.mem_append_right _ (by simp))
          · exact ih st1 st' hmem' hok

/-- Every path the scan ever schedules for removal, and every path value
ever stored in the digest map, satisfies any predicate that holds for the
initial removal list and map values and for every listed regular file's
path string. -/
theorem scan_paths_invariant (hashFn : HashFn) (fs : Fs) (logic : String)
    (P : String → Prop) :
    ∀ (l : List RawPath),
      (∀ p ∈ l, (lookupFs fs p).isSome → ∀ s, p.to_str = some s → P s) →
      ∀ (st st' : ScanState),
        scanEntries hashFn fs logic st l = .ok st' →
        (∀ s ∈ st.files_to_remove, P s) →
        (∀ s ∈ idxValues st.file_hashes, P s) →
        (∀ s ∈ st'.files_to_remove, P s) ∧ (∀ s ∈ idxValues st'.file_hashes, P s) := by
  intro l
  induction l with
  | nil =>
      intro _ st st' hok h1 h2
      simp only [scanEntries] at hok
      injection hok with h
      exact h ▸ ⟨h1, h2⟩
  | cons p rest ih =>
      intro hcl st st' hok h1 h2
      simp only [scanEntries] at hok
      cases hpe : processEntry hashFn fs logic st p with
      | error e =>
          rw [hpe] at hok
          exact Except.noConfusion hok
      | ok st1 =>
          rw [hpe] at hok
          have hcl' : ∀ q ∈ rest, (lookupFs fs q).isSome → ∀ s, q.to_str = some s → P s :=
            fun q hq => hcl q (List.mem_cons_of_mem _ hq)
          rcases processEntry_ok_cases hashFn fs logic st st1 p hpe with
            ⟨_, rfl⟩ | ⟨e, he, rfl⟩ | ⟨s, hs, hsf, rfl⟩ | ⟨s, k, hs, hsf, rfl⟩
          · exact ih hcl' _ st' hok h1 h2
          · refine ih hcl' _ st' hok ?_ h2
            intro x hx
            rcases List.mem_append.mp hx with hx | hx
            · exact h1 x hx
            · rw [List.mem_singleton.mp hx]
              exact h2 e he
          · refine ih hcl' _ st' hok ?_ h2
            intro x hx
            rcases List.mem_append.mp hx with hx | hx
            · exact h1 x hx
            · rw [List.mem_singleton.mp hx]
              exact hcl p (List.mem_cons_self _ _) hsf s hs
          · refine ih hcl' _ st' hok h1 ?_
            intro x hx
            rcases idxInsert_values _ _ _ _ hx with hx | hx
            · exact h2 x hx
            · rw [hx]
              exact hcl p (List.mem_cons_self _ _) hsf s hs

/-- C9: starting from a loaded index and empty removal list, every path
the scan schedules for removal is a path value of the loaded index or the
path of a regular file listed in the scanned directory this run; nothing
else can ever be passed to file removal. -/
theorem c9_deletes_only_scanned_or_indexed (hashFn : HashFn) (fs : Fs) (logic : String)
    (init : Index) (entries : List RawPath) (st' : ScanState)
    (hok : scanEntries hashFn fs logic ⟨init, [], []⟩ entries = .ok st') :
    ∀ s ∈ st'.files_to_remove,
      s ∈ idxValues init ∨
        (RawPath.utf8 s ∈ entries ∧ (lookupFs fs (.utf8 s)).isSome) := by
  refine (scan_paths_invariant hashFn fs logic
      (fun s => s ∈ idxValues init ∨
        (RawPath.utf8 s ∈ entries ∧ (lookupFs fs (.utf8 s)).isSome))
      entries ?_ ⟨init, [], []⟩ st' hok ?_ ?_).1
  · intro p hp hpf s hs
    obtain rfl := to_str_eq_utf8 p s hs
    exact Or.inr ⟨hp, hpf⟩
  · intro s hs
    exact absurd hs (List.not_mem_nil _)
  · intro s hs
    exact Or.inl hs

/-- Witness for C9 on the fsAB scenario: the only removed path a.txt is a
scanned regular file. -/
theorem c9_witness :
    "a.txt" ∈ idxValues [] ∨
      (RawPath.utf8 "a.txt" ∈ entriesAB ∧ (lookupFs fsAB (.utf8 "a.txt")).isSome) :=
  c9_deletes_only_scanned_or_indexed testHash fsAB "MD5" [] entriesAB
    ⟨[("[1]", "a.txt")], ["a.txt"], [.utf8 "a.txt", .utf8 "b.txt"]⟩ rfl
    "a.txt" (by decide)

/-- Witness for the amended C4 on fsWithResults: results.json is read. -/
theorem c4_witness :
    RawPath.utf8 resultsName ∈
      (ScanState.mk [("[1]", "a"), ("[2]", resultsName)] []
        [.utf8 "a", .utf8 resultsName]).readLog :=
  c4_results_file_always_read testHash fsWithResults "MD5" rfl
    [.utf8 "a", .utf8 resultsName] ⟨[], [], []⟩
    ⟨[("[1]", "a"), ("[2]", resultsName)], [], [.utf8 "a", .utf8 resultsName]⟩
    (by decide) rfl

/-- C6 amended: an unrecognized algorithm name makes the run abort with
the invalid-algorithm panic only when a regular file is hashed, and by
then that file's content has already been read: the read log attached to
the error ends with the offending file. -/
theorem c6_invalid_algo_errors_after_read (hashFn : HashFn) (fs : Fs) (logic : String)
    (st : ScanState) (p : RawPath) (d : FileData)
    (halgo : parseAlgo logic = none) (hfile : lookupFs fs p = some d) :
    processEntry hashFn fs logic st p =
      .error (.invalidAlgo logic, st.readLog ++ [p]) := by
  simp [processEntry, compute_hash, hfile, halgo]

/-- Witness for the amended C6 with algorithm SHA3 and one file. -/
theorem c6_witness :
    processEntry testHash fsSingle "SHA3" ⟨[], [], []⟩ (.utf8 "a") =
      .error (.invalidAlgo "SHA3", [.utf8 "a"]) :=
  c6_invalid_algo_errors_after_read testHash fsSingle "SHA3" ⟨[], [], []⟩
    (.utf8 "a") ⟨[1], 1⟩ rfl rfl

/-- C7: when the scanned file's digest is already recorded and its
modification time equals the recorded file's, the scanned file itself is
scheduled for removal and the digest map is left unchanged, still
pointing at the previously recorded path. -/
theorem c7_equal_mtime_keeps_existing (hashFn : HashFn) (fs : Fs) (logic : String)
    (st : ScanState) (p : RawPath) (a : HashAlgo) (cm em : FileData) (e s : String)
    (hfile : lookupFs fs p = some cm)
    (halgo : parseAlgo logic = some a)
    (hget : idxGet st.file_hashes (hashFn a cm.content) = some e)
    (hem : lookupFs fs (.utf8 e) = some em)
    (heq : cm.mtime = em.mtime)
    (hstr : p.to_str = some s) :
    processEntry hashFn fs logic st p =
      .ok { st with files_to_remove := st.files_to_remove ++ [s],
                    readLog := st.readLog ++ [p] } := by
  simp [processEntry, compute_hash, hfile, halgo, hget, hem, hstr, heq]

/-- Witness for C7 on fsTie: identical content and equal mtimes, b is the
incoming duplicate and is scheduled for removal; the map keeps a. -/
theorem c7_witness :
    processEntry testHash fsTie "MD5" ⟨[("[1]", "a")], [], []⟩ (.utf8 "b") =
      .ok ⟨[("[1]", "a")], ["b"], [.utf8 "b"]⟩ :=
  c7_equal_mtime_keeps_existing testHash fsTie "MD5" ⟨[("[1]", "a")], [], []⟩
    (.utf8 "b") .MD5 ⟨[1], 1⟩ ⟨[1], 1⟩ "a" "b" rfl rfl rfl rfl rfl rfl

/-- C8: with no positional argument the configuration file path defaults
to config.json, and when that file does not exist the configuration
defaults to the current directory with MD5. -/
theorem c8_defaults (args : List String) (fs : Fs) (parse : List Nat → Option Config)
    (hargs : ¬ args.length > 1)
    (habs : lookupFs fs (.utf8 "config.json") = none) :
    chooseConfigFile args = "config.json" ∧
    loadConfig fs (chooseConfigFile args) parse = .ok ⟨".", "MD5"⟩ := by
  have h1 : chooseConfigFile args = "config.json" := by
    simp [chooseConfigFile, hargs]
  refine ⟨h1, ?_⟩
  rw [h1]
  simp [loadConfig, habs]

/-- Witness for C8 with a bare command line and an empty filesystem. -/
theorem c8_witness :
    chooseConfigFile ["rclean"] = "config.json" ∧
    loadConfig [] (chooseConfigFile ["rclean"]) (fun _ => none) = .ok ⟨".", "MD5"⟩ :=
  c8_defaults ["rclean"] [] (fun _ => none) (by decide) rfl

/-- C10 amended: a non-UTF-8 regular file aborts the run with the unwrap
panic exactly in the branches that convert the current path: when its
digest is not yet recorded, or when it is recorded but the file is not
strictly newer than the recorded one. -/
theorem c10_non_utf8_panics_unless_newer_duplicate (hashFn : HashFn) (fs : Fs)
    (logic : String) (st : ScanState) (i : Nat) (d : FileData) (a : HashAlgo)
    (hfile : lookupFs fs (.nonUtf8 i) = some d)
    (halgo : parseAlgo logic = some a)
    (hcase : idxGet st.file_hashes (hashFn a d.content) = none ∨
        ∃ e em, idxGet st.file_hashes (hashFn a d.content) = some e ∧
          lookupFs fs (.utf8 e) = some em ∧ d.mtime ≤ em.mtime) :
    processEntry hashFn fs logic st (.nonUtf8 i) =
      .error (.unwrapNone (.nonUtf8 i), st.readLog ++ [.nonUtf8 i]) := by
  rcases hcase with hget | ⟨e, em, hget, hem, hle⟩
  · simp [processEntry, compute_hash, hfile, halgo, hget, RawPath.to_str]
  · simp [processEntry, compute_hash, hfile, halgo, hget, hem, RawPath.to_str,
      Nat.not_lt.mpr hle]

/-- Witness for the amended C10: a fresh non-UTF-8 file panics. -/
theorem c10_witness :
    processEntry testHash fsNonUtf "MD5" ⟨[], [], []⟩ (.nonUtf8 3) =
      .error (.unwrapNone (.nonUtf8 3), [.nonUtf8 3]) :=
  c10_non_utf8_panics_unless_newer_duplicate testHash fsNonUtf "MD5" ⟨[], [], []⟩ 3
    ⟨[1], 1⟩ .MD5 rfl rfl (Or.inl rfl)

end Rclean
